import Mathlib

/-!
# Verification of `subword_nmt/learn_joint_bpe_and_vocab.py`

A shallow embedding of the joint-BPE-and-vocabulary pipeline of
`src/subword_nmt/learn_joint_bpe_and_vocab.py`, together with theorems
settling the specification claims about it.

The merge-learning (`learn_bpe.learn_bpe`) and merge-application
(`apply_bpe.BPE`) collaborators are repository code that is not under
`src/`; where a claim depends on them they are modelled from the
specification, and segmentation is otherwise kept abstract as a function
parameter (`String → Option (List String)`, `none` standing for a raised
exception).
-/

namespace SubwordNmt

/-! ## Models of the Python string primitives used by the source -/

/-- `l.dropWhile` on the reverse: removes trailing characters in `cs`. -/
def dropTrailing (cs : List Char) (l : List Char) : List Char :=
  ((l.reverse).dropWhile (fun c => cs.contains c)).reverse

/-- Python `str.strip(chars)`: removes leading **and** trailing characters
drawn from the set `cs` (the source uses `line.strip('\r\n ')`). -/
def pyStripL (cs : List Char) (l : List Char) : List Char :=
  dropTrailing cs (l.dropWhile (fun c => cs.contains c))

/-- Python `str.strip(chars)` on `String`. -/
def pyStrip (cs : List Char) (s : String) : String :=
  String.mk (pyStripL cs s.data)

/-- The character set of `strip('\r\n ')` in the source. -/
def crlfSpace : List Char := ['\r', '\n', ' ']

/-- Python `str.split(sep)` with a one-character separator: splits at every
occurrence of the separator and keeps empty fields
(`'a  b'.split(' ') == ['a','','b']`, `''.split(' ') == ['']`). -/
def splitOnChar (sep : Char) : List Char → List (List Char)
  | [] => [[]]
  | c :: rest =>
    let r := splitOnChar sep rest
    if c = sep then [] :: r
    else
      match r with
      | [] => [[c]]
      | h :: t => (c :: h) :: t

/-- `str.split(' ')` on `String`, as used by the dict-mode line parser. -/
def pySplitSpace (s : String) : List String :=
  (splitOnChar ' ' s.data).map String.mk

/-- Python's notion of whitespace for `str.split()` / `str.strip()` with no
argument: space, tab, newline, carriage return, vertical tab, form feed. -/
def pyIsSpace (c : Char) : Bool :=
  c = ' ' || c = '\t' || c = '\n' || c = '\r' || c = '\x0b' || c = '\x0c'

/-- Split at every character satisfying `p`, keeping empty fields. -/
def splitOnPred (p : Char → Bool) : List Char → List (List Char)
  | [] => [[]]
  | c :: rest =>
    let r := splitOnPred p rest
    if p c then [] :: r
    else
      match r with
      | [] => [[c]]
      | h :: t => (c :: h) :: t

/-- Python `str.split()` with no argument: whitespace-run tokenization with
empty fields discarded (whitespace-only strings give no tokens). -/
def pySplitWs (s : String) : List String :=
  ((splitOnPred pyIsSpace s.data).filter (fun l => !l.isEmpty)).map String.mk

/-- Digit run of a Python integer literal, allowing single underscores
between digits (`int('1_0') == 10` in Python 3). -/
def pyDigits : Nat → List Char → Option Nat
  | acc, [] => some acc
  | acc, c :: rest =>
    if c.isDigit then pyDigits (acc * 10 + (c.toNat - 48)) rest
    else if c = '_' then
      match rest with
      | [] => none
      | r :: rs =>
        if r.isDigit then pyDigits (acc * 10 + (r.toNat - 48)) rs else none
    else none

/-- Nonempty digit run (first character must be a digit). -/
def pyDigitsNE : List Char → Option Nat
  | [] => none
  | c :: rest => if c.isDigit then pyDigits (c.toNat - 48) rest else none

/-- The Python whitespace character set, as a list. -/
def pyWsChars : List Char := [' ', '\t', '\n', '\r', '\x0b', '\x0c']

/-- Python `int(s)`: strips surrounding whitespace, then an optional sign and
a nonempty digit run; `none` models the raised `ValueError`. -/
def pyInt (s : String) : Option Int :=
  match pyStripL pyWsChars s.data with
  | '+' :: rest => (pyDigitsNE rest).map Int.ofNat
  | '-' :: rest => (pyDigitsNE rest).map (fun n => -(n : Int))
  | l => (pyDigitsNE l).map Int.ofNat

/-! ## Model of the Python `Counter` / `dict`

A `Counter` is embedded as an association list in insertion order with
unique keys maintained by the update operations; counts are Python `int`,
hence `Int` (dict-mode inputs may carry negative counts). -/

/-- `vocab[k] += n` on a `Counter`: update in place, or append a fresh key
(missing keys read as `0`). -/
def addCount : List (String × Int) → String → Int → List (String × Int)
  | [], k, n => [(k, n)]
  | (k', v) :: rest, k, n =>
    if k' = k then (k', v + n) :: rest else (k', v) :: addCount rest k n

/-- `vocab[k] = n`: overwrite in place, or append a fresh key. -/
def setCount : List (String × Int) → String → Int → List (String × Int)
  | [], k, n => [(k, n)]
  | (k', v) :: rest, k, n =>
    if k' = k then (k', n) :: rest else (k', v) :: setCount rest k n

/-- `vocab[k]` as a `Counter` read: `0` for a missing key. -/
def getCount : List (String × Int) → String → Int
  | [], _ => 0
  | (k', v) :: rest, k => if k' = k then v else getCount rest k

/-- Sum of all stored counts. -/
def sumCounts (m : List (String × Int)) : Int :=
  (m.map (fun kv => kv.2)).sum

/-- Python `max(vocab.values())`: `none` models the `ValueError` raised on an
empty dictionary. -/
def maxValues : List (String × Int) → Option Int
  | [] => none
  | (_, c) :: rest => some (rest.foldl (fun m kv => max m kv.2) c)

/-! ## Translations of the source (`learn_joint_bpe_and_vocab.py`) -/

/-- Special-vocabulary loader, line 105 of the source:
`[line.strip('\r\n ') for line in codecs.open(args.special_vocab, ...)]`.
`lines` are the file's raw lines (trailing newline included). -/
def loadSpecialVocab (lines : List String) : List String :=
  lines.map (fun l => pyStrip crlfSpace l)

/-- The loader as the specification describes it ("strip **trailing**
carriage-return/newline/space characters ... leading characters of each
line are left unchanged"), for comparison with `loadSpecialVocab`. -/
def loadSpecialVocabTrailingOnly (lines : List String) : List String :=
  lines.map (fun l => String.mk (dropTrailing crlfSpace l.data))

/-- Outcome of processing one dict-mode line (lines 130-138): either the
`except` handler fires, printing `Failed reading vocabulary file at line
{i}: {line}` and exiting (`reported`), or an exception escapes the `try`
block and aborts the run with a bare traceback (`uncaught`). -/
inductive DictError where
  | reported (i : Nat) (line : String) : DictError
  | uncaught : DictError
deriving DecidableEq, Repr

/-- One iteration of the dict-mode loop, lines 130-138 of the source:
the `try` block covers `line.strip('\r\n ').split(' ')` (which must yield
exactly two fields) and `bpe.segment_tokens([word])`; the conversion
`int(count)` happens **inside the subsequent `for` loop**, outside the
`try`, so it runs once per segment and never runs when there are no
segments. -/
def dictLineStep (segment : String → Option (List String))
    (vocab : List (String × Int)) (i : Nat) (line : String) :
    Except DictError (List (String × Int)) :=
  match pySplitSpace (pyStrip crlfSpace line) with
  | [w, c] =>
    match segment w with
    | none => .error (.reported i line)
    | some segs =>
      match segs with
      | [] => .ok vocab
      | _ :: _ =>
        match pyInt c with
        | none => .error .uncaught
        | some n => .ok (segs.foldl (fun v s => addCount v s n) vocab)
  | _ => .error (.reported i line)

/-- The whole dict-mode re-derivation loop (`for i, line in
enumerate(train_file)`), starting from the empty `Counter`. -/
def dictModeVocab (segment : String → Option (List String))
    (lines : List String) : Except DictError (List (String × Int)) :=
  lines.enum.foldlM (fun v il => dictLineStep segment v il.1 il.2) []

/-- Modelled from the spec: `learn_bpe.get_vocabulary` (raw-text mode) is
not under `src/`. "each line is whitespace-tokenized into words; every
token increments its count by one. Whitespace-only lines contribute no
entries." -/
def getVocabularyRaw (lines : List String) : List (String × Int) :=
  lines.foldl
    (fun v l => (pySplitWs l).foldl (fun v' t => addCount v' t 1) v) []

/-- The total whitespace-delimited token count of a list of lines. -/
def totalTokens (lines : List String) : Nat :=
  (lines.map (fun l => (pySplitWs l).length)).sum

/-- Raw-text-mode re-derivation, lines 140-155 of the source: a named
temporary file is created, every input line is passed through
`bpe.process_line(line).strip()` and written to it, `get_vocabulary` is
re-run over the buffer, and only then `os.remove(tmp.name)` runs — there
is no `try/finally`, so an exception raised while processing a line
propagates before the removal.  The result pairs the computed vocabulary
(`none` when a line failed) with whether the temporary file was removed. -/
def rawDerive (processLine : String → Option String) (lines : List String) :
    Option (List (String × Int)) × Bool :=
  match lines.mapM (fun l => (processLine l).map (fun s => pyStrip pyWsChars s)) with
  | none => (none, false)
  | some transformed => (some (getVocabularyRaw transformed), true)

/-- Special-vocabulary re-fold, lines 158-168 of the source: for each
special word, segment it and add `1` to every resulting piece's count
(a segmentation failure exits the run; the split warning on line 166 is
observational and does not change the counts). -/
def specialFold (segment : String → Option (List String))
    (specials : List String) (vocab : List (String × Int)) :
    Option (List (String × Int)) :=
  specials.foldlM
    (fun v w =>
      (segment w).map (fun segs => segs.foldl (fun v' s => addCount v' s 1) v))
    vocab

/-- Raw-text-mode per-corpus vocabulary right before character
augmentation (lines 140-168): raw re-derivation followed by the
special-vocabulary re-fold. -/
def rawModeVocab (processLine : String → Option String)
    (segment : String → Option (List String)) (specials : List String)
    (lines : List String) : Option (List (String × Int)) :=
  match (rawDerive processLine lines).1 with
  | none => none
  | some v => specialFold segment specials v

/-- Modelled from the spec: `learn_bpe.extract_uniq_chars` is not under
`src/`. "derive the set of unique terminal characters (characters that end
a word) and unique non-terminal characters (characters that do not end a
word ...) from the original combined vocabulary"; the glossary classifies
occurrences ("occurring at the end of a word ... vs. elsewhere"), so a
character may be in both sets.  Returns `(char_internal, char_terminal)`
as in the source's unpacking on line 174; the rendering side is chosen by
the caller (line 181), so the `postpend` argument does not affect the
sets. -/
def extractUniqChars (vocab : List (String × Int)) (_ppend : Bool) :
    List Char × List Char :=
  ((vocab.map (fun kv => kv.1.data.dropLast)).flatten.dedup,
   (vocab.filterMap (fun kv => kv.1.data.getLast?)).dedup)

/-- Rendering of a non-terminal character, line 181 of the source:
`'{sep}{c}'` when `--postpend` is set, `'{c}{sep}'` otherwise. -/
def renderInternal (sep : String) (ppend : Bool) (c : Char) : String :=
  if ppend then sep ++ c.toString else c.toString ++ sep

/-- Character-vocabulary augmentation, lines 173-182 of the source:
`pseudo_count_terminal = max(vocab.values()) + 2`,
`pseudo_count_internal = max(vocab.values()) + 1`, then every terminal
character's entry is **overwritten** with the former and every rendered
non-terminal character's entry with the latter.  `none` models the
`ValueError` of `max` on an empty vocabulary. -/
def augmentCharVocab (sep : String) (ppend : Bool)
    (charInternal charTerminal : List Char) (vocab : List (String × Int)) :
    Option (List (String × Int)) :=
  match maxValues vocab with
  | none => none
  | some mx =>
    let v1 := charTerminal.foldl (fun v c => setCount v c.toString (mx + 2)) vocab
    some (charInternal.foldl
      (fun v c => setCount v (renderInternal sep ppend c) (mx + 1)) v1)

/-- The comparator of the emission sort, line 183 of the source:
`sorted(vocab.items(), key=lambda x: (-x[1], x[0]))`, i.e. count
descending, ties broken by ascending lexicographic symbol order. -/
def emitLe (a b : String × Int) : Bool :=
  b.2 < a.2 || (a.2 == b.2 && decide (a.1 ≤ b.1))

/-- The sorted entry list written to the vocabulary file. -/
def sortVocab (m : List (String × Int)) : List (String × Int) :=
  m.mergeSort emitLe

/-- The bytes of the emitted per-corpus vocabulary file, lines 183-184 of
the source: one `"{key} {freq}\n"` line per entry, in sorted order. -/
def vocabFileContents (m : List (String × Int)) : String :=
  String.join ((sortVocab m).map (fun kv => kv.1 ++ " " ++ toString kv.2 ++ "\n"))

/-! ## File-event model of program start-up (for the mismatch check)

`create_parser` declares `--input` with `type=argparse.FileType('r')` and
`--output` / `--write-vocabulary` with `type=argparse.FileType('w')`
(lines 49-68): argparse opens every named file while parsing the command
line, and mode `'w'` creates or truncates it.  Only afterwards does
`learn_joint_bpe_and_vocab` compare `len(args.input)` with
`len(args.vocab)` (lines 95-97) and `sys.exit(1)` on a mismatch. -/

/-- A file opened during start-up; opening for write creates/truncates. -/
inductive FileEvent where
  | openRead (path : String) : FileEvent
  | openWrite (path : String) : FileEvent
deriving DecidableEq, Repr

/-- The file events performed by argument parsing itself. -/
def parseEvents (inputs : List String) (output : String)
    (vocabs : List String) : List FileEvent :=
  inputs.map .openRead ++ [.openWrite output] ++ vocabs.map .openWrite

/-- Start-up through the count check: the events of argument parsing,
then — mirroring `if args.vocab and len(args.input) != len(args.vocab)` —
either an abort (`true`) with the files already touched, or the reopening
of every input, the codes output and every vocabulary file by the pipeline
itself (lines 100-101, 120, 123). -/
def runPrefix (inputs : List String) (output : String)
    (vocabs : List String) : List FileEvent × Bool :=
  let ev := parseEvents inputs output vocabs
  if vocabs ≠ [] ∧ inputs.length ≠ vocabs.length then (ev, true)
  else
    (ev ++ inputs.map .openRead ++ vocabs.map .openWrite
        ++ [.openWrite output, .openRead output], false)

/-! ## Helper lemmas on the counter model -/

theorem getCount_addCount_self (m : List (String × Int)) (k : String) (n : Int) :
    getCount (addCount m k n) k = getCount m k + n := by
  induction m with
  | nil => simp [addCount, getCount]
  | cons kv rest ih =>
    obtain ⟨k', v⟩ := kv
    by_cases h : k' = k
    · simp [addCount, getCount, h]
    · simp [addCount, getCount, h, ih]

theorem getCount_addCount_ne (m : List (String × Int)) {k k' : String} (n : Int)
    (h : k' ≠ k) : getCount (addCount m k n) k' = getCount m k' := by
  induction m with
  | nil =>
    simp only [addCount, getCount]
    rw [if_neg (fun hh => h hh.symm)]
  | cons kv rest ih =>
    obtain ⟨k₀, v⟩ := kv
    by_cases h₀ : k₀ = k
    · subst h₀
      simp only [addCount, if_pos rfl, getCount]
      rw [if_neg (fun hh => h hh.symm), if_neg (fun hh => h hh.symm)]
    · simp [addCount, getCount, h₀, ih]

theorem sumCounts_addCount (m : List (String × Int)) (k : String) (n : Int) :
    sumCounts (addCount m k n) = sumCounts m + n := by
  induction m with
  | nil => simp [addCount, sumCounts]
  | cons kv rest ih =>
    obtain ⟨k₀, v⟩ := kv
    by_cases h : k₀ = k
    · simp [addCount, sumCounts, h]
      ring
    · simp only [addCount, sumCounts, h, if_false, List.map_cons, List.sum_cons]
      simp only [sumCounts] at ih
      omega

theorem getCount_setCount_self (m : List (String × Int)) (k : String) (n : Int) :
    getCount (setCount m k n) k = n := by
  induction m with
  | nil => simp [setCount, getCount]
  | cons kv rest ih =>
    obtain ⟨k₀, v⟩ := kv
    by_cases h : k₀ = k
    · simp [setCount, getCount, h]
    · simp [setCount, getCount, h, ih]

theorem getCount_setCount_ne (m : List (String × Int)) {k k' : String} (n : Int)
    (h : k' ≠ k) : getCount (setCount m k n) k' = getCount m k' := by
  induction m with
  | nil =>
    simp only [setCount, getCount]
    rw [if_neg (fun hh => h hh.symm)]
  | cons kv rest ih =>
    obtain ⟨k₀, v⟩ := kv
    by_cases h₀ : k₀ = k
    · subst h₀
      simp only [setCount, if_pos rfl, getCount]
      rw [if_neg (fun hh => h hh.symm), if_neg (fun hh => h hh.symm)]
    · simp [setCount, getCount, h₀, ih]

theorem keys_setCount (m : List (String × Int)) (k k' : String) (n : Int)
    (h : k' ∈ (setCount m k n).map Prod.fst) :
    k' = k ∨ k' ∈ m.map Prod.fst := by
  induction m with
  | nil => simpa [setCount] using h
  | cons kv rest ih =>
    obtain ⟨k₀, v⟩ := kv
    by_cases h₀ : k₀ = k
    · subst h₀
      simpa [setCount] using h
    · simp only [setCount, h₀, if_false, List.map_cons, List.mem_cons] at h
      rcases h with h | h
      · exact Or.inr (by simp [h])
      · rcases ih h with h | h
        · exact Or.inl h
        · exact Or.inr (by simp [h])

theorem getCount_nonneg (m : List (String × Int))
    (h : ∀ kv ∈ m, 0 ≤ kv.2) (k : String) : 0 ≤ getCount m k := by
  induction m with
  | nil => simp [getCount]
  | cons kv rest ih =>
    obtain ⟨k₀, v⟩ := kv
    by_cases h₀ : k₀ = k
    · simpa [getCount, h₀] using h (k₀, v) (by simp)
    · simp only [getCount]
      rw [if_neg h₀]
      exact ih (fun kv hkv => h kv (List.mem_cons_of_mem _ hkv))

theorem mem_of_mem_keys (m : List (String × Int)) (k : String)
    (h : k ∈ m.map Prod.fst) : (k, getCount m k) ∈ m := by
  induction m with
  | nil => simp at h
  | cons kv rest ih =>
    obtain ⟨k₀, v⟩ := kv
    by_cases h₀ : k₀ = k
    · subst h₀
      simp [getCount]
    · simp only [List.map_cons, List.mem_cons] at h
      rcases h with h | h
      · exact absurd h.symm h₀
      · have hi := ih h
        simp only [getCount] at *
        rw [if_neg h₀]
        exact List.mem_cons_of_mem _ hi

theorem le_foldl_max (l : List (String × Int)) (b : Int) :
    b ≤ l.foldl (fun m kv => max m kv.2) b := by
  induction l generalizing b with
  | nil => simp
  | cons kv rest ih =>
    calc b ≤ max b kv.2 := le_max_left _ _
    _ ≤ _ := ih (max b kv.2)

theorem mem_le_foldl_max (l : List (String × Int)) :
    ∀ (b : Int) (kv : String × Int), kv ∈ l →
      kv.2 ≤ l.foldl (fun m kv => max m kv.2) b := by
  induction l with
  | nil =>
    intro b kv h
    simp at h
  | cons kv₀ rest ih =>
    intro b kv h
    rcases List.mem_cons.mp h with h | h
    · subst h
      calc kv.2 ≤ max b kv.2 := le_max_right _ _
      _ ≤ _ := le_foldl_max rest _
    · exact ih _ _ h

theorem le_of_maxValues (m : List (String × Int)) (mx : Int)
    (h : maxValues m = some mx) (kv : String × Int) (hm : kv ∈ m) :
    kv.2 ≤ mx := by
  match m, hm with
  | (k₀, v₀) :: rest, hm =>
    simp only [maxValues, Option.some.injEq] at h
    subst h
    rcases List.mem_cons.mp hm with h | h
    · subst h
      exact le_foldl_max rest _
    · exact mem_le_foldl_max rest _ _ h

theorem maxValues_isSome (m : List (String × Int)) :
    (maxValues m).isSome = true ↔ m ≠ [] := by
  cases m with
  | nil => simp [maxValues]
  | cons kv rest => simp [maxValues]

theorem getCount_le_of_maxValues (m : List (String × Int)) (mx : Int)
    (h : maxValues m = some mx) (k : String) (hk : k ∈ m.map Prod.fst) :
    getCount m k ≤ mx :=
  le_of_maxValues m mx h (k, getCount m k) (mem_of_mem_keys m k hk)

/-! ## Fold lemmas for the augmentation and re-fold loops -/

theorem getCount_foldl_setCount_of_ne (r : Char → String) (val : Int)
    (cs : List Char) :
    ∀ (v : List (String × Int)) (k : String), (∀ c ∈ cs, r c ≠ k) →
      getCount (cs.foldl (fun m c => setCount m (r c) val) v) k = getCount v k := by
  induction cs with
  | nil =>
    intro v k _
    rfl
  | cons c₀ rest ih =>
    intro v k h
    simp only [List.foldl_cons]
    rw [ih _ k (fun c hc => h c (List.mem_cons_of_mem _ hc))]
    exact getCount_setCount_ne v val (fun hh => h c₀ (by simp) hh.symm)

theorem getCount_foldl_setCount_of_mem (r : Char → String) (val : Int)
    (cs : List Char) :
    ∀ (v : List (String × Int)) (k : String), (∃ c ∈ cs, r c = k) →
      getCount (cs.foldl (fun m c => setCount m (r c) val) v) k = val := by
  induction cs with
  | nil =>
    intro v k h
    simp at h
  | cons c₀ rest ih =>
    intro v k h
    simp only [List.foldl_cons]
    by_cases hr : ∃ c ∈ rest, r c = k
    · exact ih _ k hr
    · have hc₀ : r c₀ = k := by
        rcases h with ⟨c, hc, hck⟩
        rcases List.mem_cons.mp hc with hc | hc
        · exact hc ▸ hck
        · exact absurd ⟨c, hc, hck⟩ hr
      rw [getCount_foldl_setCount_of_ne r val rest _ k
        (fun c hc hck => hr ⟨c, hc, hck⟩)]
      rw [← hc₀]
      exact getCount_setCount_self v (r c₀) val

theorem keys_foldl_setCount (r : Char → String) (val : Int) (cs : List Char) :
    ∀ (v : List (String × Int)) (k : String),
      k ∈ (cs.foldl (fun m c => setCount m (r c) val) v).map Prod.fst →
      (∃ c ∈ cs, r c = k) ∨ k ∈ v.map Prod.fst := by
  induction cs with
  | nil =>
    intro v k h
    exact Or.inr h
  | cons c₀ rest ih =>
    intro v k h
    simp only [List.foldl_cons] at h
    rcases ih _ k h with h | h
    · rcases h with ⟨c, hc, hck⟩
      exact Or.inl ⟨c, List.mem_cons_of_mem _ hc, hck⟩
    · rcases keys_setCount v (r c₀) k val h with h | h
      · exact Or.inl ⟨c₀, by simp, h.symm⟩
      · exact Or.inr h

theorem getCount_le_foldl_addCount (n : Int) (hn : 0 ≤ n) (segs : List String) :
    ∀ (v : List (String × Int)) (k : String),
      getCount v k ≤ getCount (segs.foldl (fun m s => addCount m s n) v) k := by
  induction segs with
  | nil =>
    intro v k
    exact le_refl _
  | cons s₀ rest ih =>
    intro v k
    simp only [List.foldl_cons]
    refine le_trans ?_ (ih (addCount v s₀ n) k)
    by_cases h : k = s₀
    · subst h
      rw [getCount_addCount_self]
      omega
    · rw [getCount_addCount_ne v n h]

theorem getCount_foldl_addCount_of_mem (n : Int) (hn : 0 ≤ n)
    (segs : List String) :
    ∀ (v : List (String × Int)) (s : String), s ∈ segs →
      getCount v s + n ≤ getCount (segs.foldl (fun m t => addCount m t n) v) s := by
  induction segs with
  | nil =>
    intro v s h
    simp at h
  | cons s₀ rest ih =>
    intro v s h
    simp only [List.foldl_cons]
    by_cases h₀ : s = s₀
    · subst h₀
      refine le_trans ?_ (getCount_le_foldl_addCount n hn rest _ s)
      rw [getCount_addCount_self]
    · rcases List.mem_cons.mp h with h | h
      · exact absurd h h₀
      · refine le_trans ?_ (ih (addCount v s₀ n) s h)
        rw [getCount_addCount_ne v n h₀]

/-- Unfolding of `specialFold` on a cons cell. -/
theorem specialFold_cons (segment : String → Option (List String))
    (w : String) (rest : List String) (v : List (String × Int)) :
    specialFold segment (w :: rest) v =
      match segment w with
      | none => none
      | some segs =>
        specialFold segment rest (segs.foldl (fun v' s => addCount v' s 1) v) := by
  cases h : segment w with
  | none => simp [specialFold, List.foldlM, h, Option.map]
  | some segs => simp [specialFold, List.foldlM, h, Option.map]

/-- `specialFold` never decreases any count. -/
theorem getCount_le_specialFold (segment : String → Option (List String))
    (specials : List String) :
    ∀ (v v' : List (String × Int)), specialFold segment specials v = some v' →
      ∀ k, getCount v k ≤ getCount v' k := by
  induction specials with
  | nil =>
    intro v v' h k
    simp only [specialFold, List.foldlM] at h
    cases h
    exact le_refl _
  | cons w rest ih =>
    intro v v' h k
    rw [specialFold_cons] at h
    cases hw : segment w with
    | none => simp [hw] at h
    | some segs =>
      rw [hw] at h
      refine le_trans ?_ (ih _ _ h k)
      exact getCount_le_foldl_addCount 1 (by omega) segs v k

/-- All counts stay non-negative across `specialFold`. -/
theorem specialFold_nonneg (segment : String → Option (List String))
    (specials : List String) (v v' : List (String × Int))
    (hv : ∀ kv ∈ v, 0 ≤ kv.2) (h : specialFold segment specials v = some v') :
    ∀ k, 0 ≤ getCount v' k :=
  fun k => le_trans (getCount_nonneg v hv k) (getCount_le_specialFold segment specials v v' h k)

/-- Splitting `specialFold` across an append. -/
theorem specialFold_append (segment : String → Option (List String))
    (l₁ l₂ : List String) (v : List (String × Int)) :
    specialFold segment (l₁ ++ l₂) v =
      match specialFold segment l₁ v with
      | none => none
      | some v₁ => specialFold segment l₂ v₁ := by
  cases h : specialFold segment l₁ v with
  | none =>
    simp only [specialFold] at h ⊢
    rw [List.foldlM_append, h]
    rfl
  | some v₁ =>
    simp only [specialFold] at h ⊢
    rw [List.foldlM_append, h]
    rfl

/-- After a successful `specialFold`, every piece of every special word's
segmentation has gained at least one count over a non-negative base. -/
theorem one_le_getCount_specialFold (segment : String → Option (List String))
    (specials : List String) (v v' : List (String × Int))
    (hv : ∀ kv ∈ v, 0 ≤ kv.2)
    (h : specialFold segment specials v = some v')
    (w : String) (hw : w ∈ specials) (segs : List String)
    (hsegs : segment w = some segs) :
    ∀ s ∈ segs, 1 ≤ getCount v' s := by
  intro s hs
  obtain ⟨pre, post, rfl⟩ := List.append_of_mem hw
  rw [specialFold_append] at h
  cases hpre : specialFold segment pre v with
  | none =>
    simp [hpre] at h
  | some v₁ =>
    simp only [hpre] at h
    simp only [specialFold_cons, hsegs] at h
    have h₀ : (0 : Int) ≤ getCount v₁ s :=
      specialFold_nonneg segment pre v v₁ hv hpre s
    have h₁ : getCount v₁ s + 1 ≤
        getCount (segs.foldl (fun m t => addCount m t 1) v₁) s :=
      getCount_foldl_addCount_of_mem 1 (by omega) segs v₁ s hs
    have h₂ : getCount (segs.foldl (fun m t => addCount m t 1) v₁) s ≤
        getCount v' s :=
      getCount_le_specialFold segment post _ v' h s
    omega

/-- A nonempty list of integers, all at least one, sums to at least one. -/
theorem one_le_sum_of_all_one_le (l : List Int) (h : ∀ x ∈ l, 1 ≤ x)
    (hne : l ≠ []) : 1 ≤ l.sum := by
  cases l with
  | nil => exact absurd rfl hne
  | cons x rest =>
    have hx := h x (by simp)
    have hrest : 0 ≤ rest.sum :=
      List.sum_nonneg (fun y hy => le_trans (by omega) (h y (List.mem_cons_of_mem _ hy)))
    simp only [List.sum_cons]
    omega

/-! ## Count-conservation lemmas (raw-text mode) -/

theorem sumCounts_foldl_addCount_one (tokens : List String) :
    ∀ (v : List (String × Int)),
      sumCounts (tokens.foldl (fun m t => addCount m t 1) v) =
        sumCounts v + tokens.length := by
  induction tokens with
  | nil =>
    intro v
    simp
  | cons t rest ih =>
    intro v
    simp only [List.foldl_cons, ih, sumCounts_addCount, List.length_cons]
    omega

theorem sumCounts_getVocabularyRaw (lines : List String) :
    sumCounts (getVocabularyRaw lines) = totalTokens lines := by
  suffices h : ∀ v, sumCounts (lines.foldl
      (fun v l => (pySplitWs l).foldl (fun v' t => addCount v' t 1) v) v) =
      sumCounts v + totalTokens lines by
    simpa [getVocabularyRaw, sumCounts] using h []
  induction lines with
  | nil =>
    intro v
    simp [totalTokens]
  | cons l rest ih =>
    intro v
    simp only [List.foldl_cons, ih, sumCounts_foldl_addCount_one, totalTokens,
      List.map_cons, List.sum_cons]
    omega

/-! ## The emission order -/

/-- The emission comparator, as a proposition. -/
theorem emitLe_iff (a b : String × Int) :
    emitLe a b = true ↔ b.2 < a.2 ∨ (a.2 = b.2 ∧ a.1 ≤ b.1) := by
  simp [emitLe]

theorem emitLe_trans (a b c : String × Int) (h₁ : emitLe a b) (h₂ : emitLe b c) :
    emitLe a c := by
  rw [emitLe_iff] at h₁ h₂ ⊢
  rcases h₁ with h₁ | ⟨h₁, h₁'⟩ <;> rcases h₂ with h₂ | ⟨h₂, h₂'⟩
  · exact Or.inl (by omega)
  · exact Or.inl (by omega)
  · exact Or.inl (by omega)
  · exact Or.inr ⟨by omega, le_trans h₁' h₂'⟩

theorem emitLe_total (a b : String × Int) : emitLe a b || emitLe b a := by
  rcases lt_trichotomy a.2 b.2 with h | h | h
  · simp only [Bool.or_eq_true, emitLe_iff]
    exact Or.inr (Or.inl h)
  · rcases le_total a.1 b.1 with hs | hs
    · simp only [Bool.or_eq_true, emitLe_iff]
      exact Or.inl (Or.inr ⟨h, hs⟩)
    · simp only [Bool.or_eq_true, emitLe_iff]
      exact Or.inr (Or.inr ⟨h.symm, hs⟩)
  · simp only [Bool.or_eq_true, emitLe_iff]
    exact Or.inl (Or.inl h)

theorem emitLe_antisymm (a b : String × Int) (h₁ : emitLe a b)
    (h₂ : emitLe b a) : a = b := by
  rw [emitLe_iff] at h₁ h₂
  have hc : a.2 = b.2 := by
    rcases h₁ with h₁ | ⟨h₁, _⟩ <;> rcases h₂ with h₂ | ⟨h₂, _⟩ <;> omega
  have hs : a.1 = b.1 := by
    rcases h₁ with h₁ | ⟨_, h₁'⟩
    · omega
    · rcases h₂ with h₂ | ⟨_, h₂'⟩
      · omega
      · exact le_antisymm h₁' h₂'
  exact Prod.ext hs hc

/-- `sortVocab` is a permutation of its input. -/
theorem sortVocab_perm (m : List (String × Int)) : (sortVocab m).Perm m :=
  List.mergeSort_perm m emitLe

/-- `sortVocab` output is pairwise ordered by the emission comparator. -/
theorem sortVocab_pairwise (m : List (String × Int)) :
    (sortVocab m).Pairwise (fun a b => emitLe a b = true) :=
  List.sorted_mergeSort emitLe_trans emitLe_total m

/-! ## Characterization of Python `strip` -/

theorem head?_dropWhile_false (p : Char → Bool) (l : List Char) (c : Char)
    (h : (l.dropWhile p).head? = some c) : p c = false := by
  have hh := List.head?_dropWhile_not p l
  rw [h] at hh
  exact hh

theorem getLast?_dropWhile_of_ne_nil (p : Char → Bool) (l : List Char)
    (h : l.dropWhile p ≠ []) : (l.dropWhile p).getLast? = l.getLast? := by
  conv_rhs => rw [← List.takeWhile_append_dropWhile (p := p) (l := l)]
  rw [List.getLast?_append]
  cases hl : (l.dropWhile p).getLast? with
  | none => exact absurd (List.getLast?_eq_none_iff.mp hl) h
  | some c => rfl

/-- Decomposition produced by `pyStripL`: the input splits into a stripped
prefix, the result, and a stripped suffix; the result neither starts nor
ends with a strippable character. -/
theorem pyStripL_decomp (cs : List Char) (l : List Char) :
    ∃ pre suf, l = pre ++ pyStripL cs l ++ suf ∧
      (∀ c ∈ pre, c ∈ cs) ∧ (∀ c ∈ suf, c ∈ cs) ∧
      (∀ c, (pyStripL cs l).head? = some c → c ∉ cs) ∧
      (∀ c, (pyStripL cs l).getLast? = some c → c ∉ cs) := by
  set p : Char → Bool := fun c => cs.contains c with hp
  set m : List Char := l.dropWhile p with hm
  refine ⟨l.takeWhile p, (m.reverse.takeWhile p).reverse, ?_, ?_, ?_, ?_, ?_⟩
  · have h1 : pyStripL cs l ++ (m.reverse.takeWhile p).reverse =
        (m.reverse.takeWhile p ++ m.reverse.dropWhile p).reverse := by
      rw [List.reverse_append]
      rfl
    rw [List.append_assoc, h1, List.takeWhile_append_dropWhile,
      List.reverse_reverse, hm, List.takeWhile_append_dropWhile]
  · intro c hc
    have := List.mem_takeWhile_imp hc
    simpa [hp, List.elem_iff] using this
  · intro c hc
    rw [List.mem_reverse] at hc
    have := List.mem_takeWhile_imp hc
    simpa [hp, List.elem_iff] using this
  · intro c hc
    have hne : m.reverse.dropWhile p ≠ [] := by
      intro hnil
      simp only [pyStripL, dropTrailing, ← hm, ← hp, hnil] at hc
      simp at hc
    have h2 : (pyStripL cs l).head? = (m.reverse.dropWhile p).getLast? := by
      simp only [pyStripL, dropTrailing, ← hm, ← hp]
      rw [List.head?_reverse]
    rw [h2, getLast?_dropWhile_of_ne_nil p m.reverse hne,
      List.getLast?_reverse] at hc
    rw [hm] at hc
    have := head?_dropWhile_false p l c hc
    simpa [hp, List.elem_iff] using this
  · intro c hc
    have h2 : (pyStripL cs l).getLast? = (m.reverse.dropWhile p).head? := by
      simp only [pyStripL, dropTrailing, ← hm, ← hp]
      rw [List.getLast?_reverse]
    rw [h2] at hc
    have := head?_dropWhile_false p m.reverse c hc
    simpa [hp, List.elem_iff] using this

/-! ## String-length helpers for the augmentation claim -/

theorem length_pos_of_ne_empty (s : String) (h : s ≠ "") : 0 < s.length := by
  cases s with
  | mk data =>
    cases data with
    | nil => exact absurd rfl h
    | cons c cs => simp [String.length]

theorem renderInternal_length (sep : String) (pp : Bool) (c : Char) :
    (renderInternal sep pp c).length = sep.length + 1 := by
  cases pp
  · simp [renderInternal]
    omega
  · simp [renderInternal]

/-- With a nonempty separator, a rendered non-terminal character can never
collide with a (single-character) terminal symbol. -/
theorem renderInternal_ne_char_string (sep : String) (hsep : sep ≠ "")
    (pp : Bool) (c t : Char) : renderInternal sep pp c ≠ t.toString := by
  intro h
  have h1 := congrArg String.length h
  rw [renderInternal_length] at h1
  simp at h1
  have := length_pos_of_ne_empty sep hsep
  omega

/-! ## Claim theorems -/

/-- C1: every emitted per-corpus vocabulary file lists its entries sorted by
count descending, breaking ties by ascending lexicographic order of the
symbol string, with exactly one `symbol count` line per entry. -/
theorem C1_emission_sorted (m : List (String × Int)) :
    (sortVocab m).Pairwise (fun a b => b.2 < a.2 ∨ (a.2 = b.2 ∧ a.1 ≤ b.1)) ∧
    (sortVocab m).Perm m ∧
    vocabFileContents m =
      String.join ((sortVocab m).map (fun kv => kv.1 ++ " " ++ toString kv.2 ++ "\n")) := by
  refine ⟨?_, sortVocab_perm m, rfl⟩
  exact (sortVocab_pairwise m).imp (fun h => (emitLe_iff _ _).mp h)

/-- C9: the pipeline's emission is deterministic: the bytes of the written
vocabulary file depend only on the key-count content of the counter, not on
its internal entry order, so two runs on identical inputs with identical
(deterministic) collaborators produce byte-identical files. -/
theorem C9_deterministic_emission (v₁ v₂ : List (String × Int))
    (h : v₁.Perm v₂) : vocabFileContents v₁ = vocabFileContents v₂ := by
  have hs : sortVocab v₁ = sortVocab v₂ := by
    haveI : IsAntisymm (String × Int) (fun a b => emitLe a b = true) :=
      ⟨emitLe_antisymm⟩
    exact List.eq_of_perm_of_sorted
      (((sortVocab_perm v₁).trans h).trans (sortVocab_perm v₂).symm)
      (sortVocab_pairwise v₁) (sortVocab_pairwise v₂)
  unfold vocabFileContents
  rw [hs]

/-- Witness for C9 at a concrete pair of equal-content counters. -/
theorem C9_deterministic_emission_witness :
    vocabFileContents [(("a" : String), (1 : Int)), ("b", 2)] =
      vocabFileContents [("b", 2), ("a", 1)] :=
  C9_deterministic_emission _ _ (by decide)

/-- C10: the `max(vocab.values())` step of character-vocabulary augmentation
fails exactly when the per-corpus vocabulary is empty: for every run in which
the vocabulary has at least one entry the branch succeeds, and an empty
vocabulary is the only way it can fail. -/
theorem C10_augment_none_iff_empty (sep : String) (pp : Bool)
    (ci ct : List Char) (vocab : List (String × Int)) :
    augmentCharVocab sep pp ci ct vocab = none ↔ vocab = [] := by
  cases vocab with
  | nil => simp [augmentCharVocab, maxValues]
  | cons kv rest => simp [augmentCharVocab, maxValues]

/-- C8 counterexample: when a line of the corpus fails during raw-text-mode
re-derivation, the scratch file is **not** removed — `os.remove` is only
reached on the success path, so the claim's "removed on every exit path"
fails. -/
theorem C8_counterexample :
    rawDerive (fun _ => none) ["x"] = (none, false) := by
  rfl

/-- C8 (amended): the scratch file is removed exactly on the success path of
raw-text-mode re-derivation; when re-derivation fails partway the file
leaks. -/
theorem C8_amended_removed_iff_success (processLine : String → Option String)
    (lines : List String) :
    (rawDerive processLine lines).2 = true ↔
      ((rawDerive processLine lines).1).isSome = true := by
  unfold rawDerive
  cases lines.mapM (fun l => (processLine l).map (fun s => pyStrip pyWsChars s)) <;> simp

/-- C5 counterexample: with 2 input corpora and 1 vocabulary path the run
does abort, but the vocabulary file and the codes file have already been
opened for writing (created/truncated) by argument parsing, refuting
"before any file is touched, and no output files are written". -/
theorem C5_counterexample :
    (runPrefix ["in1", "in2"] "codes" ["voc"]).2 = true ∧
    FileEvent.openWrite "voc" ∈ (runPrefix ["in1", "in2"] "codes" ["voc"]).1 ∧
    FileEvent.openWrite "codes" ∈ (runPrefix ["in1", "in2"] "codes" ["voc"]).1 := by
  refine ⟨?_, ?_, ?_⟩ <;> decide

/-- C5 (amended): on an input/vocabulary count mismatch the run aborts
before the pipeline itself opens or writes any file — the whole event trace
is exactly what argument parsing already performed. -/
theorem C5_amended_abort_before_pipeline_io (inputs : List String)
    (output : String) (vocabs : List String) (h₁ : vocabs ≠ [])
    (h₂ : inputs.length ≠ vocabs.length) :
    runPrefix inputs output vocabs = (parseEvents inputs output vocabs, true) := by
  simp [runPrefix, h₁, h₂]

/-- Witness for the amended C5 at a concrete mismatched configuration. -/
theorem C5_amended_witness :
    runPrefix ["in1", "in2"] "codes" ["voc"] =
      (parseEvents ["in1", "in2"] "codes" ["voc"], true) :=
  C5_amended_abort_before_pipeline_io _ _ _ (by decide) (by decide)

/-- C7 counterexample: the loader strips **leading** carriage-return /
newline / space characters too (Python `str.strip(chars)` strips both
ends), so a line with a leading space is not returned with its leading
characters unchanged. -/
theorem C7_counterexample :
    loadSpecialVocab [" abc\n"] = ["abc"] ∧
    loadSpecialVocabTrailingOnly [" abc\n"] = [" abc"] ∧
    loadSpecialVocab [" abc\n"] ≠ loadSpecialVocabTrailingOnly [" abc\n"] := by
  refine ⟨?_, ?_, ?_⟩ <;> decide

/-- C7 (amended): the loader returns the file's lines in order, one output
per line (duplicates preserved), each line with its **leading and**
trailing carriage-return, newline and space characters stripped and
nothing else removed. -/
theorem C7_amended_loader (lines : List String) (i : Nat)
    (h : i < lines.length) :
    (loadSpecialVocab lines).length = lines.length ∧
    ∃ pre core suf,
      (loadSpecialVocab lines).get ⟨i, by simpa [loadSpecialVocab] using h⟩ =
        String.mk core ∧
      (lines.get ⟨i, h⟩).data = pre ++ core ++ suf ∧
      (∀ c ∈ pre, c ∈ crlfSpace) ∧ (∀ c ∈ suf, c ∈ crlfSpace) ∧
      (∀ c, core.head? = some c → c ∉ crlfSpace) ∧
      (∀ c, core.getLast? = some c → c ∉ crlfSpace) := by
  constructor
  · simp [loadSpecialVocab]
  · obtain ⟨pre, suf, hdec, hpre, hsuf, hhead, hlast⟩ :=
      pyStripL_decomp crlfSpace (lines.get ⟨i, h⟩).data
    refine ⟨pre, pyStripL crlfSpace (lines.get ⟨i, h⟩).data, suf,
      ?_, hdec, hpre, hsuf, hhead, hlast⟩
    rw [List.get_eq_getElem, List.get_eq_getElem]
    simp [loadSpecialVocab, pyStrip]

/-- Witness for the amended C7 at a concrete special-vocabulary file. -/
theorem C7_amended_loader_witness :
    (loadSpecialVocab [" abc\n"]).length = [" abc\n"].length :=
  (C7_amended_loader [" abc\n"] 0 (by decide)).1

/-- C4 counterexample: the line `"a b"` splits into exactly two fields and
its word segments fine, but its count field is not an integer; `int(count)`
sits outside the `try` block, so the run dies with an uncaught exception —
no report naming the 0-based line index and the raw line is produced. -/
theorem C4_counterexample :
    dictModeVocab (fun w => some [w]) ["a b"] = Except.error DictError.uncaught ∧
    DictError.uncaught ≠ DictError.reported 0 "a b" := by
  exact ⟨rfl, by decide⟩

/-- C4 (amended): a dict-mode line that does not split into exactly two
space-separated fields, or whose word the segmenter fails on, aborts the
run with the structured report naming the 0-based line index and the raw
line; a line whose count field is not an integer (with at least one
segment) instead aborts via an exception that escapes the handler, without
that report. -/
theorem C4_amended_dict_line_errors (segment : String → Option (List String))
    (vocab : List (String × Int)) (i : Nat) (line : String) :
    ((pySplitSpace (pyStrip crlfSpace line)).length ≠ 2 →
      dictLineStep segment vocab i line = .error (.reported i line)) ∧
    (∀ w c, pySplitSpace (pyStrip crlfSpace line) = [w, c] →
      segment w = none →
      dictLineStep segment vocab i line = .error (.reported i line)) ∧
    (∀ w c s ss, pySplitSpace (pyStrip crlfSpace line) = [w, c] →
      segment w = some (s :: ss) → pyInt c = none →
      dictLineStep segment vocab i line = .error DictError.uncaught) := by
  refine ⟨?_, ?_, ?_⟩
  · intro hlen
    unfold dictLineStep
    cases hs : pySplitSpace (pyStrip crlfSpace line) with
    | nil => rfl
    | cons w rest =>
      cases rest with
      | nil => rfl
      | cons c rest2 =>
        cases rest2 with
        | nil =>
          rw [hs] at hlen
          simp at hlen
        | cons d rest3 => rfl
  · intro w c hs hseg
    simp [dictLineStep, hs, hseg]
  · intro w c s ss hs hseg hint
    simp [dictLineStep, hs, hseg, hint]

/-- Witness for the amended C4: a three-field line is reported with its
index and content. -/
theorem C4_amended_witness :
    dictLineStep (fun w => some [w]) [] 3 "a b c" =
      Except.error (DictError.reported 3 "a b c") :=
  (C4_amended_dict_line_errors _ _ 3 "a b c").1 (by decide)

/-- C6 counterexample: with special vocabulary `["b"]`, the per-corpus
vocabulary taken just before character augmentation (after the special
re-fold) sums to 2, while the transformed corpus `["a"]` has 1 token. -/
theorem C6_counterexample :
    rawModeVocab (fun l => some l) (fun w => some [w]) ["b"] ["a"] =
      some [("a", 1), ("b", 1)] ∧
    (rawDerive (fun l => some l) ["a"]).1 = some [("a", 1)] ∧
    sumCounts [(("a" : String), (1 : Int)), ("b", 1)] ≠ (totalTokens ["a"] : Int) := by
  refine ⟨?_, ?_, ?_⟩ <;> decide

/-- C6 (amended): in raw-text mode the sum of the per-corpus counts taken
just after re-extraction from the transformed corpus — before the
special-vocabulary re-fold, equivalently just before character augmentation
whenever no special vocabulary is configured — equals the total
whitespace-delimited token count of the transformed corpus. -/
theorem C6_amended_count_conservation (processLine : String → Option String)
    (segment : String → Option (List String)) (lines transformed : List String)
    (v : List (String × Int))
    (h : lines.mapM (fun l => (processLine l).map (fun s => pyStrip pyWsChars s)) =
      some transformed)
    (hv : rawModeVocab processLine segment [] lines = some v) :
    sumCounts v = totalTokens transformed := by
  have hd : (rawDerive processLine lines).1 = some (getVocabularyRaw transformed) := by
    unfold rawDerive
    rw [h]
  unfold rawModeVocab at hv
  simp only [hd] at hv
  simp only [specialFold, List.foldlM] at hv
  cases hv
  exact sumCounts_getVocabularyRaw transformed

/-- Witness for the amended C6 on a concrete raw-text corpus. -/
theorem C6_amended_witness :
    sumCounts [(("a" : String), (2 : Int))] = totalTokens ["a a"] :=
  C6_amended_count_conservation (fun l => some l) (fun w => some [w])
    ["a a"] ["a a"] _ (by decide) (by decide)

/-- C3 counterexample: dict-mode inputs may carry negative counts
(`int(count)` accepts them), and the re-fold only adds 1 per piece, so the
sum of the counts of the special word's subwords can stay below 1. -/
theorem C3_counterexample :
    specialFold (fun w => some [w]) ["a"] [("a", -5)] = some [("a", -4)] ∧
    ¬ (1 ≤ (((["a"] : List String).dedup).map
        (getCount [(("a" : String), (-4 : Int))])).sum) := by
  refine ⟨?_, ?_⟩ <;> decide

/-- C3 (amended): provided every count in the per-corpus vocabulary is
non-negative (as in raw-text mode, or dict mode with non-negative counts)
and the segmenter returns at least one piece for the special word, the sum
of the counts of the distinct subwords of `segment(w)` after the re-fold is
at least 1, regardless of how the segmenter splits `w`. -/
theorem C3_amended_special_word_presence
    (segment : String → Option (List String)) (specials : List String)
    (vocab vocab' : List (String × Int))
    (hnn : ∀ kv ∈ vocab, 0 ≤ kv.2)
    (h : specialFold segment specials vocab = some vocab')
    (w : String) (hw : w ∈ specials) (segs : List String)
    (hsegs : segment w = some segs) (hne : segs ≠ []) :
    1 ≤ ((segs.dedup).map (getCount vocab')).sum := by
  apply one_le_sum_of_all_one_le
  · intro x hx
    rw [List.mem_map] at hx
    obtain ⟨s, hs, rfl⟩ := hx
    exact one_le_getCount_specialFold segment specials vocab vocab' hnn h
      w hw segs hsegs s (List.mem_dedup.mp hs)
  · simp only [ne_eq, List.map_eq_nil_iff, List.dedup_eq_nil]
    exact hne

/-- Witness for the amended C3 on a concrete special word. -/
theorem C3_amended_witness :
    1 ≤ (((["a"] : List String).dedup).map
      (getCount [(("a" : String), (1 : Int))])).sum :=
  C3_amended_special_word_presence (fun w => some [w]) ["a"] [] [("a", 1)]
    (by simp) (by decide) "a" (by decide) ["a"] rfl (by decide)

/-- C2 counterexample: with an empty separator (`--separator ''` is
accepted by the CLI), a character that both ends some word and occurs
word-internally — such as `a` in `aa` — is rendered identically as
terminal and as non-terminal; the internal pass overwrites the terminal
pseudo-count, so `count(t) > count(n)` fails. -/
theorem C2_counterexample :
    (extractUniqChars [(("aa" : String), (1 : Int))] false).1 = ['a'] ∧
    (extractUniqChars [(("aa" : String), (1 : Int))] false).2 = ['a'] ∧
    augmentCharVocab "" false ['a'] ['a'] [("aa", 1)] =
      some [("aa", 1), ("a", 2)] ∧
    ¬ (getCount [(("aa" : String), (1 : Int)), ("a", 2)] (Char.toString 'a') >
       getCount [(("aa" : String), (1 : Int)), ("a", 2)]
         (renderInternal "" false 'a')) := by
  refine ⟨?_, ?_, ?_, ?_⟩ <;> decide

/-- C2 (amended): provided the separator is nonempty (so terminal symbols
and rendered non-terminal symbols cannot collide), after augmentation every
terminal character holds exactly `max + 2`, every rendered non-terminal
character exactly `max + 1` (overwriting, not adding to, prior counts,
where `max` is the maximum per-corpus count before augmentation), and hence
`count(t) > count(n) > count(s)` for every other symbol `s`. -/
theorem C2_amended_char_rank (sep : String) (hsep : sep ≠ "") (pp : Bool)
    (ci ct : List Char) (vocab V : List (String × Int))
    (hV : augmentCharVocab sep pp ci ct vocab = some V)
    (t : Char) (ht : t ∈ ct) (n : Char) (hn : n ∈ ci) :
    getCount V t.toString > getCount V (renderInternal sep pp n) ∧
    (∀ k ∈ V.map Prod.fst, k ∉ ct.map Char.toString →
      k ∉ ci.map (renderInternal sep pp) →
      getCount V (renderInternal sep pp n) > getCount V k) ∧
    ∃ mx, maxValues vocab = some mx ∧
      getCount V t.toString = mx + 2 ∧
      getCount V (renderInternal sep pp n) = mx + 1 := by
  cases hmx : maxValues vocab with
  | none =>
    unfold augmentCharVocab at hV
    rw [hmx] at hV
    exact absurd hV (by simp)
  | some mx =>
    unfold augmentCharVocab at hV
    rw [hmx] at hV
    simp only [Option.some.injEq] at hV
    set v1 : List (String × Int) :=
      ct.foldl (fun v c => setCount v c.toString (mx + 2)) vocab with hv1
    have hVt : getCount V t.toString = mx + 2 := by
      rw [← hV]
      rw [getCount_foldl_setCount_of_ne (renderInternal sep pp) (mx + 1) ci v1
        t.toString (fun c _ => renderInternal_ne_char_string sep hsep pp c t)]
      exact getCount_foldl_setCount_of_mem Char.toString (mx + 2) ct vocab
        t.toString ⟨t, ht, rfl⟩
    have hVn : getCount V (renderInternal sep pp n) = mx + 1 := by
      rw [← hV]
      exact getCount_foldl_setCount_of_mem (renderInternal sep pp) (mx + 1) ci
        v1 (renderInternal sep pp n) ⟨n, hn, rfl⟩
    refine ⟨by omega, ?_, mx, rfl, hVt, hVn⟩
    intro k hk hkt hkn
    have hkn' : ∀ c ∈ ci, renderInternal sep pp c ≠ k := by
      intro c hc hck
      exact hkn (List.mem_map.mpr ⟨c, hc, hck⟩)
    have hkt' : ∀ c ∈ ct, c.toString ≠ k := by
      intro c hc hck
      exact hkt (List.mem_map.mpr ⟨c, hc, hck⟩)
    have hVk : getCount V k = getCount vocab k := by
      rw [← hV]
      rw [getCount_foldl_setCount_of_ne (renderInternal sep pp) (mx + 1) ci v1
        k hkn']
      exact getCount_foldl_setCount_of_ne Char.toString (mx + 2) ct vocab k hkt'
    have hkv : k ∈ vocab.map Prod.fst := by
      rw [← hV] at hk
      rcases keys_foldl_setCount (renderInternal sep pp) (mx + 1) ci v1 k hk
        with hx | hx
      · rcases hx with ⟨c, hc, hck⟩
        exact absurd hck (hkn' c hc)
      · rcases keys_foldl_setCount Char.toString (mx + 2) ct vocab k hx
          with hy | hy
        · rcases hy with ⟨c, hc, hck⟩
          exact absurd hck (hkt' c hc)
        · exact hy
    have hle : getCount vocab k ≤ mx :=
      getCount_le_of_maxValues vocab mx hmx k hkv
    omega

/-- Witness for the amended C2 on a concrete augmented vocabulary. -/
theorem C2_amended_witness :
    getCount [(("ab" : String), (5 : Int)), ("b", 7), ("a@@", 6)]
        (Char.toString 'b') >
      getCount [(("ab" : String), (5 : Int)), ("b", 7), ("a@@", 6)]
        (renderInternal "@@" false 'a') :=
  (C2_amended_char_rank "@@" (by decide) false ['a'] ['b'] [("ab", 5)]
    [("ab", 5), ("b", 7), ("a@@", 6)] (by decide) 'b' (by decide)
    'a' (by decide)).1

end SubwordNmt
